import Mathlib

/-!
Verification of the CLAWS OF DOOM market-data resolution and signal
lifecycle engine (src/systems/claws_engine.py), shallowly embedded in
Lean 4.  Prices and percentages are modelled as exact rationals;
Python's two-argument `round` (banker's rounding, half to even) is
modelled by `pyRoundInt`/`pyround2`/`pyround1`.  Timestamps are a plain
`Nat` parameter threaded through the lifecycle functions.
-/

namespace Claws

/-- Python's built-in `round` to an integer: nearest integer, ties to even. -/
def pyRoundInt (q : ℚ) : ℤ :=
  let f : ℤ := ⌊q⌋
  let frac : ℚ := q - f
  if frac < 1/2 then f
  else if frac > 1/2 then f + 1
  else if f % 2 = 0 then f else f + 1

/-- Python's `round(q, 2)`. -/
def pyround2 (q : ℚ) : ℚ := (pyRoundInt (q * 100) : ℚ) / 100

/-- Python's `round(q, 1)`. -/
def pyround1 (q : ℚ) : ℚ := (pyRoundInt (q * 10) : ℚ) / 10

/-!
## Quote Resolver (BulletproofClaws.get_prices)

Each provider adapter returns either `none` (failure: exception, bad HTTP
status, or no data) or `some (priceMap, sourceTag)`.  The price map is an
association list from coin symbol to `(price, change24hPct)`.  The
resolver takes the adapters' results in priority order and returns the
first one whose map is non-empty (Python truthiness of the dict), else
`none` after exhausting the list.
-/

/-- A resolved per-symbol map: (coin, price, 24h change percent). -/
abbrev PriceMap := List (String × ℚ × ℚ)

/-- Result of one provider adapter: `none` on failure, or prices plus source tag. -/
abbrev AdapterResult := Option (PriceMap × String)

/-- Embeds `BulletproofClaws.get_prices`: walk the ordered adapter results,
return the first whose price dict is truthy (non-empty), else `(None, None)`. -/
def get_prices : List AdapterResult → Option (PriceMap × String)
  | [] => none
  | r :: rest =>
    match r with
    | some (m, tag) => if m ≠ [] then some (m, tag) else get_prices rest
    | none => get_prices rest

/-- The success criterion stated by the spec for claim C1: the adapter supplies
a non-empty price map whose prices are all positive. -/
def specAdapterSuccess (r : AdapterResult) : Prop :=
  ∃ m tag, r = some (m, tag) ∧ m ≠ [] ∧ ∀ e ∈ m, 0 < e.2.1

/-- The success criterion the code actually applies: non-empty price map,
positivity never checked. -/
def codeAdapterSuccess (r : AdapterResult) : Prop :=
  ∃ m tag, r = some (m, tag) ∧ m ≠ []

instance (r : AdapterResult) : Decidable (specAdapterSuccess r) :=
  match r with
  | none => isFalse (by rintro ⟨m, t, h, -, -⟩; cases h)
  | some (m, tag) =>
    if hm : m ≠ [] ∧ ∀ e ∈ m, 0 < e.2.1 then
      isTrue ⟨m, tag, rfl, hm.1, hm.2⟩
    else
      isFalse (by
        rintro ⟨m2, t2, h, h1, h2⟩
        simp only [Option.some.injEq, Prod.mk.injEq] at h
        exact hm ⟨h.1 ▸ h1, h.1 ▸ h2⟩)

/-!
## Sentiment Resolver (BulletproofClaws.get_fear_greed)
-/

/-- Outcome of the single primary sentiment fetch (alternative.me). -/
inductive SentimentFetch where
  | ok (value : ℤ)
  | httpFail (code : ℕ)
  | netError
  | malformed
deriving DecidableEq

/-- Embeds `BulletproofClaws.get_fear_greed`: a successful primary fetch
returns its value tagged with the provider name; every failure path falls
through to the fixed fallback `(25, "estimated")`. -/
def get_fear_greed : SentimentFetch → ℤ × String
  | .ok v => (v, "alternative.me")
  | .httpFail _ => (25, "estimated")
  | .netError => (25, "estimated")
  | .malformed => (25, "estimated")

/-!
## Signal data model

One persisted pick (signal).  Python stores these as JSON dicts whose keys
grow as lifecycle fields are stamped; here every field is always present,
with the dict-absent default as initial value (matching `pick.get(k, default)`
reads in the source).  Timestamps are `Nat` parameters.
-/

structure Pick where
  symbol : String
  strategy : String
  direction : String := "LONG"
  confidence : ℚ := 0
  entry_price : ℚ := 0
  tp_price : ℚ := 0
  sl_price : ℚ := 0
  position_pct : ℚ := 3/100
  status : String := ""
  current_price : ℚ := 0
  unrealized_pnl_pct : ℚ := 0
  unrealized_pnl_dollar : ℚ := 0
  last_checked : Nat := 0
  exit_price : ℚ := 0
  exit_reason : String := ""
  exit_time : Nat := 0
  realized_pnl_pct : ℚ := 0
  realized_pnl_dollar : ℚ := 0
deriving DecidableEq

/-- Dict lookup `sym in prices` / `prices[sym]` on the association list. -/
def priceLookup (prices : PriceMap) (s : String) : Option (ℚ × ℚ) :=
  match prices.find? (fun e => e.1 = s) with
  | some e => some e.2
  | none => none

/-- Capital base constant from the source (`CAPITAL_BASE = 10000`). -/
def CAPITAL_BASE : ℚ := 10000

/-- Outcome of processing a single active pick in `_track_performance`. -/
inductive TrackOut where
  | carried (p : Pick)
  | stillActive (p : Pick)
  | closed (p : Pick)
deriving DecidableEq

/-- P&L percentage: `(entry - current)/entry * 100` for shorts,
`(current - entry)/entry * 100` for longs, rounded to 2 decimals. -/
def pnlPct (cp : ℚ) (pick : Pick) : ℚ :=
  if pick.direction = "SHORT" then pyround2 ((pick.entry_price - cp) / pick.entry_price * 100)
  else pyround2 ((cp - pick.entry_price) / pick.entry_price * 100)

/-- Dollar P&L: `round(pnl_pct / 100 * position_pct * CAPITAL_BASE, 2)`. -/
def pnlDollar (cp : ℚ) (pick : Pick) : ℚ :=
  pyround2 (pnlPct cp pick / 100 * pick.position_pct * CAPITAL_BASE)

/-- The four tracking fields stamped on every active pick whose symbol resolved. -/
def stampTracking (t : Nat) (cp : ℚ) (pick : Pick) : Pick :=
  { pick with
    current_price := pyround2 cp,
    unrealized_pnl_pct := pnlPct cp pick,
    unrealized_pnl_dollar := pnlDollar cp pick,
    last_checked := t }

/-- The closure fields stamped when TP or SL is hit. -/
def closeWith (st reason : String) (t : Nat) (cp : ℚ) (pick : Pick) : Pick :=
  { stampTracking t cp pick with
    status := st, exit_price := pyround2 cp, exit_reason := reason, exit_time := t,
    realized_pnl_pct := pnlPct cp pick, realized_pnl_dollar := pnlDollar cp pick }

/-- Direction-dependent take-profit condition. -/
def tpHit (cp : ℚ) (pick : Pick) : Bool :=
  if pick.direction = "SHORT" then decide (cp ≤ pick.tp_price) else decide (cp ≥ pick.tp_price)

/-- Direction-dependent stop-loss condition. -/
def slHit (cp : ℚ) (pick : Pick) : Bool :=
  if pick.direction = "SHORT" then decide (cp ≥ pick.sl_price) else decide (cp ≤ pick.sl_price)

/-- Embeds the per-pick body of `BulletproofClaws._track_performance`:
look up the symbol, compute P&L, stamp tracking fields, then apply the
direction-dependent TP/SL checks with the TP branch first. -/
def trackOne (prices : PriceMap) (t : Nat) (pick : Pick) : TrackOut :=
  match priceLookup prices pick.symbol with
  | none => .carried pick
  | some (cp, _) =>
    if tpHit cp pick then .closed (closeWith "CLOSED_TP" "TP_HIT" t cp pick)
    else if slHit cp pick then .closed (closeWith "CLOSED_SL" "SL_HIT" t cp pick)
    else .stillActive { stampTracking t cp pick with status := "ACTIVE" }

/-- The pick carried by a `TrackOut`. -/
def trackPick : TrackOut → Pick
  | .carried p => p
  | .stillActive p => p
  | .closed p => p

/-- Whether a `TrackOut` is a closure. -/
def isClosedOut : TrackOut → Bool
  | .closed _ => true
  | _ => false

/-- Embeds `BulletproofClaws._track_performance`: fold `trackOne` over the
active list, returning `(still_active, newly_closed)` in input order. -/
def trackPerformance (prices : PriceMap) (t : Nat) : List Pick → List Pick × List Pick
  | [] => ([], [])
  | pick :: rest =>
    let r := trackPerformance prices t rest
    match trackOne prices t pick with
    | .carried p => (p :: r.1, r.2)
    | .stillActive p => (p :: r.1, r.2)
    | .closed p => (r.1, p :: r.2)

/-- Embeds `BulletproofClaws._save_closed_picks`: append the new closures
and keep only the last 1000 entries. -/
def saveClosedPicks (closed newly_closed : List Pick) : List Pick :=
  let l := closed ++ newly_closed
  l.drop (l.length - 1000)

/-- Merge key `f"{symbol}_{strategy}"` used by step 5 of `run`. -/
def mergeKey (p : Pick) : String := p.symbol ++ "_" ++ p.strategy

/-- Loop body of step 5 of `BulletproofClaws.run`: activate each candidate
whose merge key is not yet taken, extending the key set as we go. -/
def mergeLoop : List Pick → List Pick → List String → List Pick
  | [], active, _ => active
  | c :: rest, active, keys =>
    if mergeKey c ∈ keys then mergeLoop rest active keys
    else mergeLoop rest (active ++ [{ c with status := "ACTIVE" }]) (mergeKey c :: keys)

/-- Embeds step 5 of `BulletproofClaws.run`: merge candidate picks into the
persisted active set, dropping candidates whose `(symbol, strategy)` key is
already present. -/
def mergePicks (cands active : List Pick) : List Pick :=
  mergeLoop cands active (active.map mergeKey)

/-- Step 5 of `BulletproofClaws.run` together with its audit output: the loop
body logs one `PICK_ACTIVATED` event per activated candidate, and its
`if key not in existing_keys` has no else branch — a dropped candidate emits
no audit entry at all.  Events are modelled by their event-kind string. -/
def mergeLoopLog : List Pick → List Pick → List String → List Pick × List String
  | [], active, _ => (active, [])
  | c :: rest, active, keys =>
    if mergeKey c ∈ keys then mergeLoopLog rest active keys
    else
      let r := mergeLoopLog rest (active ++ [{ c with status := "ACTIVE" }]) (mergeKey c :: keys)
      (r.1, "PICK_ACTIVATED" :: r.2)

/-- The candidate merge of step 5 of `run`, returning both the updated active
set and the audit events the loop emits. -/
def mergePicksLog (cands active : List Pick) : List Pick × List String :=
  mergeLoopLog cands active (active.map mergeKey)

/-!
## Confidence scoring (BulletproofClaws._confidence_score)

The returned explanation string is not modelled; only the numeric
confidence (first component of the Python return value) is.
-/

/-- Fear bonus: up to +0.15 when the Fear & Greed value is at most 25. -/
def fearBonus : Option ℤ → ℚ
  | some v => if v ≤ 25 then ((25 - v : ℤ) : ℚ) / 25 * (15/100) else 0
  | none => 0

/-- Momentum bonus: `min(0.10, |change_pct| * 0.005)`. -/
def momentumBonus : Option ℚ → ℚ
  | some c => min (10/100) (|c| * (5/1000))
  | none => 0

/-- Embeds the numeric part of `BulletproofClaws._confidence_score`:
`round(min(0.80, 0.55 + fear_bonus + momentum_bonus + technical_bonus), 2)`. -/
def confidenceScore (fg : Option ℤ) (change_pct : Option ℚ) (technical_bonus : ℚ) : ℚ :=
  pyround2 (min (80/100) (55/100 + fearBonus fg + momentumBonus change_pct + technical_bonus))

/-!
## Indicator Engine (BulletproofClaws._calc_rsi)
-/

/-- Consecutive deltas `closes[i] - closes[i-1]`. -/
def deltasOf (closes : List ℚ) : List ℚ :=
  (closes.zip closes.tail).map (fun e => e.2 - e.1)

/-- Wilder smoothing step applied over the post-seed deltas:
`avg = (avg * (period - 1) + x) / period`. -/
def wilderSmooth (period : ℕ) (init : ℚ) (xs : List ℚ) : ℚ :=
  xs.foldl (fun avg x => (avg * ((period : ℚ) - 1) + x) / period) init

/-- Final Wilder average gain over a delta list. -/
def rsiAvgGain (closes : List ℚ) (period : ℕ) : ℚ :=
  let gains := (deltasOf closes).map (fun d => if d > 0 then d else 0)
  wilderSmooth period ((gains.take period).sum / period) (gains.drop period)

/-- Final Wilder average loss over a delta list. -/
def rsiAvgLoss (closes : List ℚ) (period : ℕ) : ℚ :=
  let losses := (deltasOf closes).map (fun d => if d < 0 then -d else 0)
  wilderSmooth period ((losses.take period).sum / period) (losses.drop period)

/-- Embeds `BulletproofClaws._calc_rsi`. -/
def calcRsi (closes : List ℚ) (period : ℕ) : Option ℚ :=
  if closes.length < period + 1 then none
  else
    let avg_gain := rsiAvgGain closes period
    let avg_loss := rsiAvgLoss closes period
    if avg_loss = 0 then some 100
    else some (pyround2 (100 - 100 / (1 + avg_gain / avg_loss)))

/-!
## Performance stats (BulletproofClaws._compute_performance_stats)
-/

structure PerfStats where
  total_closed : ℕ
  wins : ℕ
  losses : ℕ
  win_rate_pct : ℚ
  total_realized_pnl_dollar : ℚ
  total_unrealized_pnl_dollar : ℚ
  active_picks_count : ℕ
deriving DecidableEq

/-- Embeds `BulletproofClaws._compute_performance_stats`. -/
def computePerformanceStats (active closed : List Pick) : PerfStats :=
  let total_closed := closed.length
  let wins := (closed.filter (fun p => p.exit_reason = "TP_HIT")).length
  let losses := (closed.filter (fun p => p.exit_reason = "SL_HIT")).length
  { total_closed := total_closed
    wins := wins
    losses := losses
    win_rate_pct := if total_closed > 0 then pyround1 ((wins : ℚ) / total_closed * 100) else 0
    total_realized_pnl_dollar := pyround2 ((closed.map (fun p => p.realized_pnl_dollar)).sum)
    total_unrealized_pnl_dollar := pyround2 ((active.map (fun p => p.unrealized_pnl_dollar)).sum)
    active_picks_count := active.length }

/-!
## Final pick selection (step 4 of BulletproofClaws.run)

`best_by_key` is a Python dict keyed by `f"{symbol}_{direction}"`; its
insertion-order/replace-in-place semantics is modelled by an association
list updated positionally.  `sorted(..., key=confidence, reverse=True)`
is a stable descending sort, modelled with `List.mergeSort`.
-/

/-- Dedup key `f"{symbol}_{direction}"`. -/
def dedupKey (p : Pick) : String := p.symbol ++ "_" ++ p.direction

/-- Python dict update `best_by_key[key] = p` guarded by
`key not in best_by_key or p.confidence > existing.confidence`:
replace in place on a strictly higher confidence, else keep; append if absent. -/
def updateBest : List Pick → Pick → List Pick
  | [], p => [p]
  | q :: rest, p =>
    if dedupKey q = dedupKey p then
      (if p.confidence > q.confidence then p else q) :: rest
    else q :: updateBest rest p

/-- The `best_by_key` dict after the dedup loop, in insertion order. -/
def bestByKey (all_picks : List Pick) : List Pick :=
  all_picks.foldl updateBest []

/-- Descending-confidence comparison used by `sorted(..., reverse=True)`. -/
def confDesc (a b : Pick) : Bool := decide (b.confidence ≤ a.confidence)

/-- Embeds `self.picks = sorted(best_by_key.values(), key=confidence, reverse=True)[:8]`. -/
def selectPicks (all_picks : List Pick) : List Pick :=
  ((bestByKey all_picks).mergeSort confDesc).take 8

/-- Re-stamping of the only field a repeated evaluation may change on a
still-active pick: the `last_checked` audit timestamp (and only when the
symbol resolves). -/
def stampTime (prices : PriceMap) (t : Nat) (p : Pick) : Pick :=
  match priceLookup prices p.symbol with
  | some _ => { p with last_checked := t }
  | none => p

/-- A concrete LONG signal with entry 100, TP 106, SL 95 (the spec's worked example). -/
def sampleLong : Pick :=
  { symbol := "BTC", strategy := "extreme_fear", direction := "LONG",
    confidence := 3/5, entry_price := 100, tp_price := 106, sl_price := 95 }

/-- A concrete SHORT signal with entry 100, TP 97, SL 102 (the spec's worked example). -/
def sampleShort : Pick :=
  { symbol := "ETH", strategy := "rsi_overbought_short", direction := "SHORT",
    confidence := 3/5, entry_price := 100, tp_price := 97, sl_price := 102 }

/-- An adversarial candidate whose confidence 0.95 exceeds the documented cap. -/
def overconfCand : Pick :=
  { symbol := "BTC", strategy := "extreme_fear", direction := "LONG",
    confidence := 19/20, entry_price := 100, tp_price := 106, sl_price := 95 }

/-!
# Theorems

First the shared helper lemmas, then one named theorem (plus witness or
counterexample where required) per claim.
-/

theorem pyRoundInt_le (q : ℚ) : (pyRoundInt q : ℚ) ≤ q + 1/2 := by
  unfold pyRoundInt
  have hf : (⌊q⌋ : ℚ) ≤ q := Int.floor_le q
  have hf2 : q < (⌊q⌋ : ℚ) + 1 := Int.lt_floor_add_one q
  by_cases h1 : q - (⌊q⌋ : ℚ) < 1/2
  · simp only [h1, if_true]
    linarith
  · simp only [h1, if_false]
    by_cases h2 : q - (⌊q⌋ : ℚ) > 1/2
    · simp only [h2, if_true]
      push_cast
      linarith
    · simp only [h2, if_false]
      have heq : q - (⌊q⌋ : ℚ) = 1/2 := by linarith
      by_cases h3 : ⌊q⌋ % 2 = 0
      · simp only [h3, if_true]
        linarith
      · simp only [h3, if_false]
        push_cast
        linarith

theorem le_pyRoundInt (q : ℚ) : q - 1/2 ≤ (pyRoundInt q : ℚ) := by
  unfold pyRoundInt
  have hf : (⌊q⌋ : ℚ) ≤ q := Int.floor_le q
  have hf2 : q < (⌊q⌋ : ℚ) + 1 := Int.lt_floor_add_one q
  by_cases h1 : q - (⌊q⌋ : ℚ) < 1/2
  · simp only [h1, if_true]
    linarith
  · simp only [h1, if_false]
    by_cases h2 : q - (⌊q⌋ : ℚ) > 1/2
    · simp only [h2, if_true]
      push_cast
      linarith
    · simp only [h2, if_false]
      by_cases h3 : ⌊q⌋ % 2 = 0
      · simp only [h3, if_true]
        linarith
      · simp only [h3, if_false]
        push_cast
        linarith

/-- Rounding a rational that lies between two integer bounds stays between them. -/
theorem pyRoundInt_bounds {q : ℚ} {lo hi : ℤ} (hlo : (lo : ℚ) ≤ q) (hhi : q ≤ (hi : ℚ)) :
    lo ≤ pyRoundInt q ∧ pyRoundInt q ≤ hi := by
  constructor
  · have h := le_pyRoundInt q
    have hq : (lo : ℚ) - 1/2 ≤ (pyRoundInt q : ℚ) := by linarith
    by_contra hc
    push_neg at hc
    have hle : pyRoundInt q + 1 ≤ lo := by omega
    have hcast : (pyRoundInt q : ℚ) + 1 ≤ (lo : ℚ) := by exact_mod_cast hle
    linarith
  · have h := pyRoundInt_le q
    have hq : (pyRoundInt q : ℚ) ≤ (hi : ℚ) + 1/2 := by linarith
    by_contra hc
    push_neg at hc
    have hle : hi + 1 ≤ pyRoundInt q := by omega
    have hcast : (hi : ℚ) + 1 ≤ (pyRoundInt q : ℚ) := by exact_mod_cast hle
    linarith

/-!
## C1 — Quote Resolver failover
-/

/-- C1, counterexample: an adapter that supplies a non-empty map containing a
non-positive price does not meet the claim's success criterion ("non-empty,
all-positive prices for at least one requested symbol"), so per the claim the
resolver should report that every adapter failed and return `(null, null)`;
the code nevertheless returns that adapter's data — positivity is never
checked by `get_prices`. -/
theorem C1_counterexample :
    get_prices [some ([("BTC", 0, 0)], "srcA")] = some ([("BTC", 0, 0)], "srcA") ∧
    ¬ specAdapterSuccess (some ([("BTC", 0, 0)], "srcA")) := by
  constructor
  · rfl
  · decide

/-- C1, amended: `get_prices` returns the snapshot and source tag of the first
adapter in the list that supplies a non-empty price map (positivity is not
checked), even if later adapters would also succeed; failed adapters (no data
or an empty map) are skipped; if every adapter fails it returns `(null, null)`;
and any returned snapshot is verbatim one adapter's non-empty result — prices
are never fabricated. -/
theorem C1_first_nonempty_wins :
    (∀ (m : PriceMap) (tag : String) (rest : List AdapterResult),
      m ≠ [] → get_prices (some (m, tag) :: rest) = some (m, tag)) ∧
    (∀ rest, get_prices (none :: rest) = get_prices rest) ∧
    (∀ tag rest, get_prices (some ([], tag) :: rest) = get_prices rest) ∧
    (∀ l, (∀ r ∈ l, ¬ codeAdapterSuccess r) → get_prices l = none) ∧
    (∀ l m tag, get_prices l = some (m, tag) → some (m, tag) ∈ l ∧ m ≠ []) := by
  refine ⟨?_, ?_, ?_, ?_, ?_⟩
  · intro m tag rest hm
    simp [get_prices, hm]
  · intro rest
    simp [get_prices]
  · intro tag rest
    simp [get_prices]
  · intro l
    induction l with
    | nil => intro _; rfl
    | cons r rest ih =>
      intro h
      have hr := h r (List.mem_cons_self r rest)
      have hrest : ∀ x ∈ rest, ¬ codeAdapterSuccess x :=
        fun x hx => h x (List.mem_cons_of_mem r hx)
      match r with
      | none => simpa [get_prices] using ih hrest
      | some (m, tag) =>
        have hm : m = [] := by
          by_contra hne
          exact hr ⟨m, tag, rfl, hne⟩
        subst hm
        simpa [get_prices] using ih hrest
  · intro l
    induction l with
    | nil => intro m tag h; cases h
    | cons r rest ih =>
      intro m tag h
      match r with
      | none =>
        have h2 : get_prices rest = some (m, tag) := by simpa [get_prices] using h
        exact ⟨List.mem_cons_of_mem _ (ih m tag h2).1, (ih m tag h2).2⟩
      | some (m2, tag2) =>
        by_cases hm2 : m2 = []
        · subst hm2
          have h2 : get_prices rest = some (m, tag) := by simpa [get_prices] using h
          exact ⟨List.mem_cons_of_mem _ (ih m tag h2).1, (ih m tag h2).2⟩
        · have h2 : some (m2, tag2) = some (m, tag) := by simpa [get_prices, hm2] using h
          obtain ⟨hmeq, htageq⟩ : m2 = m ∧ tag2 = tag := by
            simpa [Prod.ext_iff] using h2
          subst hmeq
          rw [htageq]
          exact ⟨List.mem_cons_self _ _, hm2⟩

/-- C1, witness: on the list [failing adapter, adapter with BTC at 50000,
adapter with ETH at 2000], the resolver returns the second adapter's snapshot,
skipping the failure and ignoring the later success. -/
theorem C1_witness :
    get_prices [none, some ([("BTC", 50000, 2)], "binance"),
                some ([("ETH", 2000, 1)], "coingecko")]
      = some ([("BTC", 50000, 2)], "binance") := by
  have h1 := C1_first_nonempty_wins.1 [("BTC", (50000 : ℚ), (2 : ℚ))] "binance"
    [some ([("ETH", 2000, 1)], "coingecko")] (by decide)
  have h2 := C1_first_nonempty_wins.2.1 [some ([("BTC", (50000 : ℚ), (2 : ℚ))], "binance"),
    some ([("ETH", 2000, 1)], "coingecko")]
  rw [h2, h1]

/-!
## C8 — Sentiment Resolver fallback
-/

/-- C8: every failure of the primary sentiment adapter (non-success HTTP
status, network error, malformed payload) yields the fixed conservative
fallback `(25, "estimated")` — a source tag that is not a provider name —
while a success returns its value tagged `alternative.me`; no other sentiment
provider is ever consulted, so the source tag is always one of those two. -/
theorem C8_sentiment_fallback :
    (∀ code, get_fear_greed (.httpFail code) = (25, "estimated")) ∧
    get_fear_greed .netError = (25, "estimated") ∧
    get_fear_greed .malformed = (25, "estimated") ∧
    (∀ v, get_fear_greed (.ok v) = (v, "alternative.me")) ∧
    (∀ r, (get_fear_greed r).2 = "alternative.me" ∨ (get_fear_greed r).2 = "estimated") := by
  refine ⟨fun _ => rfl, rfl, rfl, fun _ => rfl, ?_⟩
  intro r
  cases r with
  | ok v => left; rfl
  | httpFail code => right; rfl
  | netError => right; rfl
  | malformed => right; rfl

/-!
## Shared merge lemmas
-/

/-- The merge loop only ever appends activated candidates after the existing
active picks; it never rewrites or drops an existing active pick. -/
theorem mergeLoop_spec : ∀ (cands active : List Pick) (keys : List String),
    ∃ new, mergeLoop cands active keys = active ++ new ∧
      ∀ p ∈ new, ∃ c ∈ cands, p = { c with status := "ACTIVE" } := by
  intro cands
  induction cands with
  | nil =>
    intro active keys
    exact ⟨[], by simp [mergeLoop], by simp⟩
  | cons c rest ih =>
    intro active keys
    by_cases h : mergeKey c ∈ keys
    · obtain ⟨new, hnew, hmem⟩ := ih active keys
      refine ⟨new, by simpa [mergeLoop, h] using hnew, ?_⟩
      intro p hp
      obtain ⟨c2, hc2, he⟩ := hmem p hp
      exact ⟨c2, List.mem_cons_of_mem _ hc2, he⟩
    · obtain ⟨new, hnew, hmem⟩ := ih (active ++ [{ c with status := "ACTIVE" }]) (mergeKey c :: keys)
      refine ⟨{ c with status := "ACTIVE" } :: new, ?_, ?_⟩
      · simp only [mergeLoop, h, if_false]
        rw [hnew, List.append_assoc]
        rfl
      · intro p hp
        rcases List.mem_cons.1 hp with hp2 | hp2
        · exact ⟨c, List.mem_cons_self _ _, hp2⟩
        · obtain ⟨c2, hc2, he⟩ := hmem p hp2
          exact ⟨c2, List.mem_cons_of_mem _ hc2, he⟩

/-- Setting the status field does not change the merge key. -/
theorem mergeKey_activate (c : Pick) : mergeKey { c with status := "ACTIVE" } = mergeKey c := rfl

/-- The merge loop preserves key distinctness of the active set, as long as
every existing key is registered in the seen-key set. -/
theorem mergeLoop_nodup : ∀ (cands active : List Pick) (keys : List String),
    (active.map mergeKey).Nodup →
    (∀ k ∈ active.map mergeKey, k ∈ keys) →
    ((mergeLoop cands active keys).map mergeKey).Nodup := by
  intro cands
  induction cands with
  | nil =>
    intro active keys h _
    simpa [mergeLoop] using h
  | cons c rest ih =>
    intro active keys hnd hsub
    by_cases h : mergeKey c ∈ keys
    · simpa [mergeLoop, h] using ih active keys hnd hsub
    · simp only [mergeLoop, h, if_false]
      apply ih
      · rw [List.map_append]
        simp only [List.map_cons, List.map_nil, mergeKey_activate]
        rw [List.nodup_append]
        refine ⟨hnd, List.nodup_singleton _, ?_⟩
        intro k hk
        simp only [List.mem_singleton]
        intro hkc
        exact h (hkc ▸ hsub k hk)
      · intro k hk
        rw [List.map_append] at hk
        rcases List.mem_append.1 hk with hk | hk
        · exact List.mem_cons_of_mem _ (hsub k hk)
        · simp only [List.map_cons, List.map_nil, mergeKey_activate, List.mem_singleton] at hk
          exact hk ▸ List.mem_cons_self _ _

/-!
## C4 — Merge deduplication
-/

/-- The audited merge computes the same active set as the plain merge. -/
theorem mergeLoopLog_fst : ∀ (cands active : List Pick) (keys : List String),
    (mergeLoopLog cands active keys).1 = mergeLoop cands active keys := by
  intro cands
  induction cands with
  | nil => intro active keys; rfl
  | cons c rest ih =>
    intro active keys
    by_cases h : mergeKey c ∈ keys
    · simp only [mergeLoopLog, mergeLoop, h, if_true]
      exact ih active keys
    · simp only [mergeLoopLog, mergeLoop, h, if_false]
      exact ih _ _

/-- C4, counterexample: merging two candidates with identical
`(symbol, strategy)` key into an empty active set emits exactly one audit
event — the `PICK_ACTIVATED` entry for the first candidate — and no entry for
the dropped second candidate.  Per the claim the drop is "dropped and logged",
which would require a second entry; the merge loop has no else branch, so the
drop is silent. -/
theorem C4_counterexample :
    (mergePicksLog [sampleLong, { sampleLong with confidence := 1/2 }] []).2
      = ["PICK_ACTIVATED"] ∧
    ¬ 2 ≤ (mergePicksLog [sampleLong, { sampleLong with confidence := 1/2 }] []).2.length := by
  constructor
  · rfl
  · intro h
    have hlen : (mergePicksLog [sampleLong, { sampleLong with confidence := 1/2 }] []).2.length
        = 1 := rfl
    rw [hlen] at h
    omega

/-- C4, amended: merging never overwrites existing active picks (the active
set is a prefix of the merge result); a candidate whose `(symbol, strategy)`
key is already active contributes nothing — and emits no audit event, the
drop is silent; key-distinctness of the active set is an invariant of the
merge; two same-key candidates in one run merge exactly like the first alone
— in particular, into an empty active set they produce exactly one ACTIVE
signal, the first processed, whose activation is the only logged event. -/
theorem C4_merge_dedup :
    (∀ cands active, ∃ new, mergePicks cands active = active ++ new) ∧
    (∀ c cands active, mergeKey c ∈ active.map mergeKey →
      mergePicks (c :: cands) active = mergePicks cands active) ∧
    (∀ cands active, (active.map mergeKey).Nodup →
      ((mergePicks cands active).map mergeKey).Nodup) ∧
    (∀ c1 c2 active, mergeKey c1 = mergeKey c2 →
      mergePicks [c1, c2] active = mergePicks [c1] active) ∧
    (∀ c1 c2, mergeKey c1 = mergeKey c2 →
      mergePicks [c1, c2] [] = [{ c1 with status := "ACTIVE" }]) ∧
    (∀ cands active, (mergePicksLog cands active).1 = mergePicks cands active) ∧
    (∀ c cands active, mergeKey c ∈ active.map mergeKey →
      mergePicksLog (c :: cands) active = mergePicksLog cands active) ∧
    (∀ c1 c2, mergeKey c1 = mergeKey c2 →
      mergePicksLog [c1, c2] []
        = ([{ c1 with status := "ACTIVE" }], ["PICK_ACTIVATED"])) := by
  refine ⟨?_, ?_, ?_, ?_, ?_, ?_, ?_, ?_⟩
  · intro cands active
    obtain ⟨new, hnew, -⟩ := mergeLoop_spec cands active (active.map mergeKey)
    exact ⟨new, hnew⟩
  · intro c cands active h
    simp [mergePicks, mergeLoop, h]
  · intro cands active hnd
    exact mergeLoop_nodup cands active (active.map mergeKey) hnd (fun k hk => hk)
  · intro c1 c2 active h
    by_cases h1 : mergeKey c1 ∈ active.map mergeKey
    · simp [mergePicks, mergeLoop, h1, h ▸ h1]
    · have h2 : mergeKey c2 ∈ mergeKey c1 :: active.map mergeKey := by
        rw [← h]; exact List.mem_cons_self _ _
      simp [mergePicks, mergeLoop, h1, h2]
  · intro c1 c2 h
    simp [mergePicks, mergeLoop, h]
  · intro cands active
    exact mergeLoopLog_fst cands active (active.map mergeKey)
  · intro c cands active h
    simp [mergePicksLog, mergeLoopLog, h]
  · intro c1 c2 h
    simp [mergePicksLog, mergeLoopLog, h]

/-- C4, witness: merging two same-key candidates (the spec's worked case) into
an empty active set yields exactly the first candidate, activated, and the
single audit event for that activation. -/
theorem C4_witness :
    mergePicks [sampleLong, { sampleLong with confidence := 1/2 }] []
      = [{ sampleLong with status := "ACTIVE" }] ∧
    mergePicksLog [sampleLong, { sampleLong with confidence := 1/2 }] []
      = ([{ sampleLong with status := "ACTIVE" }], ["PICK_ACTIVATED"]) :=
  ⟨C4_merge_dedup.2.2.2.2.1 sampleLong { sampleLong with confidence := 1/2 } rfl,
   C4_merge_dedup.2.2.2.2.2.2.2 sampleLong { sampleLong with confidence := 1/2 } rfl⟩

/-!
## C3 — Confidence bounds
-/

/-- C3, counterexample: the Lifecycle Manager does not clamp confidence on
ingestion — a candidate carrying confidence 0.95 is merged into the active set
with its confidence unchanged, above the claimed 0.80 ceiling. -/
theorem C3_counterexample :
    (mergePicks [overconfCand] []).map (fun p => p.confidence) = [19/20] ∧
    ¬ ((19 : ℚ)/20 ≤ 80/100) := by
  constructor
  · rfl
  · norm_num

/-- C3, amended: the confidence scorer itself guarantees the `[0, 0.80]` range
for every evaluator output, including technical bonuses exceeding their
documented caps (any non-negative bonus): it clamps at `min(0.80, ·)` at
scoring time and the non-negative bonuses keep the score at least the 0.55
base.  The merge step preserves any such range invariant (it copies
confidences verbatim), but performs no clamping of its own. -/
theorem fearBonus_nonneg (fg : Option ℤ) : 0 ≤ fearBonus fg := by
  match fg with
  | none => exact le_refl 0
  | some v =>
    by_cases hv : v ≤ 25
    · simp only [fearBonus, hv, if_true]
      have h25 : (0 : ℚ) ≤ ((25 - v : ℤ) : ℚ) := by
        have h : (0 : ℤ) ≤ 25 - v := by omega
        exact_mod_cast h
      positivity
    · simp [fearBonus, hv]

theorem momentumBonus_nonneg (c : Option ℚ) : 0 ≤ momentumBonus c := by
  match c with
  | none => exact le_refl 0
  | some c =>
    apply le_min
    · norm_num
    · positivity

/-- The rounded, capped confidence of any value at least the 0.55 base lies in
`[0.55, 0.80]`. -/
theorem pyround2_capped_bounds {x : ℚ} (hx : 55/100 ≤ x) :
    55/100 ≤ pyround2 (min (80/100) x) ∧ pyround2 (min (80/100) x) ≤ 80/100 := by
  have h1 : (55 : ℚ)/100 ≤ min (80/100) x := le_min (by norm_num) hx
  have h2 : min (80/100 : ℚ) x ≤ 80/100 := min_le_left _ _
  have hlo : ((55 : ℤ) : ℚ) ≤ min (80/100 : ℚ) x * 100 := by push_cast; linarith
  have hhi : min (80/100 : ℚ) x * 100 ≤ ((80 : ℤ) : ℚ) := by push_cast; linarith
  obtain ⟨ha, hb⟩ := pyRoundInt_bounds hlo hhi
  unfold pyround2
  have ha2 : ((55 : ℤ) : ℚ) ≤ (pyRoundInt (min (80/100 : ℚ) x * 100) : ℚ) := by exact_mod_cast ha
  have hb2 : (pyRoundInt (min (80/100 : ℚ) x * 100) : ℚ) ≤ ((80 : ℤ) : ℚ) := by exact_mod_cast hb
  constructor
  · push_cast at ha2 ⊢
    linarith
  · push_cast at hb2 ⊢
    linarith

/-- C3, amended: the confidence scorer itself guarantees the `[0, 0.80]` range
for every evaluator output, including technical bonuses exceeding their
documented caps (any non-negative bonus): it clamps at `min(0.80, ·)` at
scoring time and the non-negative bonuses keep the score at least the 0.55
base.  The merge step preserves any such range invariant (it copies
confidences verbatim), but performs no clamping of its own. -/
theorem C3_confidence_bounds :
    (∀ (fg : Option ℤ) (change_pct : Option ℚ) (tech : ℚ), 0 ≤ tech →
      0 ≤ confidenceScore fg change_pct tech ∧ confidenceScore fg change_pct tech ≤ 80/100) ∧
    (∀ cands active, (∀ c ∈ cands, 0 ≤ c.confidence ∧ c.confidence ≤ 80/100) →
      (∀ a ∈ active, 0 ≤ a.confidence ∧ a.confidence ≤ 80/100) →
      ∀ p ∈ mergePicks cands active, 0 ≤ p.confidence ∧ p.confidence ≤ 80/100) := by
  constructor
  · intro fg change_pct tech htech
    have hfear := fearBonus_nonneg fg
    have hmom := momentumBonus_nonneg change_pct
    have hx : (55 : ℚ)/100 ≤ 55/100 + fearBonus fg + momentumBonus change_pct + tech := by
      linarith
    obtain ⟨hlo, hhi⟩ := pyround2_capped_bounds hx
    unfold confidenceScore
    constructor
    · linarith
    · exact hhi
  · intro cands active hc ha p hp
    obtain ⟨new, hnew, hmem⟩ := mergeLoop_spec cands active (active.map mergeKey)
    rw [mergePicks] at hp
    rw [hnew] at hp
    rcases List.mem_append.1 hp with hp | hp
    · exact ha p hp
    · obtain ⟨c, hcm, he⟩ := hmem p hp
      have : p.confidence = c.confidence := by rw [he]
      rw [this]
      exact hc c hcm

/-- C3, witness: with Fear & Greed 10, a 24h change of −12%, and a technical
bonus of 7.5 (far above any documented cap), the scorer still returns a value
in `[0, 0.80]`; and merging that pick keeps its in-range confidence. -/
theorem C3_witness :
    (0 ≤ confidenceScore (some 10) (some (-12)) (15/2) ∧
      confidenceScore (some 10) (some (-12)) (15/2) ≤ 80/100) ∧
    (∀ p ∈ mergePicks [sampleLong] [], 0 ≤ p.confidence ∧ p.confidence ≤ 80/100) :=
  ⟨C3_confidence_bounds.1 (some 10) (some (-12)) (15/2) (by norm_num),
   C3_confidence_bounds.2 [sampleLong] [] (by intro c hc; simp at hc; rw [hc]; constructor <;> norm_num [sampleLong]) (by intro a ha; simp at ha) ⟩

/-- Rounding an integral rational is the identity. -/
theorem pyRoundInt_intCast (z : ℤ) : pyRoundInt (z : ℚ) = z := by
  unfold pyRoundInt
  rw [Int.floor_intCast]
  norm_num

/-- Evaluation rule for `pyround2` at exact 2-decimal values. -/
theorem pyround2_eq {q r : ℚ} {z : ℤ} (h1 : q * 100 = (z : ℚ)) (h2 : (z : ℚ) / 100 = r) :
    pyround2 q = r := by
  unfold pyround2
  rw [h1, pyRoundInt_intCast, h2]

/-- Evaluation rule for `pyround1` at exact 1-decimal values. -/
theorem pyround1_eq {q r : ℚ} {z : ℤ} (h1 : q * 10 = (z : ℚ)) (h2 : (z : ℚ) / 10 = r) :
    pyround1 q = r := by
  unfold pyround1
  rw [h1, pyRoundInt_intCast, h2]

/-!
## Shared lifecycle-tracking lemmas
-/

/-- A pick whose symbol is absent from the snapshot is carried unchanged. -/
theorem trackOne_none {prices : PriceMap} {t : Nat} {pick : Pick}
    (h : priceLookup prices pick.symbol = none) :
    trackOne prices t pick = .carried pick := by
  unfold trackOne
  rw [h]

/-- A pick whose symbol resolves is tracked: TP check first, then SL, else
it stays active with freshly stamped tracking fields. -/
theorem trackOne_some {prices : PriceMap} {t : Nat} {pick : Pick} {cp ch : ℚ}
    (h : priceLookup prices pick.symbol = some (cp, ch)) :
    trackOne prices t pick =
      if tpHit cp pick then .closed (closeWith "CLOSED_TP" "TP_HIT" t cp pick)
      else if slHit cp pick then .closed (closeWith "CLOSED_SL" "SL_HIT" t cp pick)
      else .stillActive { stampTracking t cp pick with status := "ACTIVE" } := by
  unfold trackOne
  rw [h]

theorem trackPerformance_cons (prices : PriceMap) (t : Nat) (pick : Pick) (rest : List Pick) :
    trackPerformance prices t (pick :: rest) =
      match trackOne prices t pick with
      | .carried p => (p :: (trackPerformance prices t rest).1, (trackPerformance prices t rest).2)
      | .stillActive p =>
        (p :: (trackPerformance prices t rest).1, (trackPerformance prices t rest).2)
      | .closed p => ((trackPerformance prices t rest).1, p :: (trackPerformance prices t rest).2) := by
  rfl

/-!
## C2 — Lifecycle closure rules
-/

/-- C2: for a signal whose symbol resolves to price `cp`: a LONG closes
`CLOSED_TP` when `cp ≥ takeProfitPrice`, else `CLOSED_SL` when
`cp ≤ stopLossPrice`, else stays `ACTIVE` (so the TP check takes priority on
a simultaneous hit); a SHORT mirrors this (`TP` when `cp ≤ takeProfitPrice`,
`SL` when `cp ≥ stopLossPrice`); realized P&L percent is
`round((cp − entry)/entry · 100, 2)` for LONG and
`round((entry − cp)/entry · 100, 2)` for SHORT; and the worked LONG example
(entry 100, TP 106, SL 95) closes TP at +6.0 on price 106, closes SL at −5.0
on price 95, and stays ACTIVE with unrealized +0.5 on price 100.5. -/
theorem C2_closure_rules :
    (∀ (prices : PriceMap) (t : Nat) (pick : Pick) (cp ch : ℚ),
      priceLookup prices pick.symbol = some (cp, ch) → pick.direction = "LONG" →
      ((trackPick (trackOne prices t pick)).status =
        (if pick.tp_price ≤ cp then "CLOSED_TP"
         else if cp ≤ pick.sl_price then "CLOSED_SL" else "ACTIVE")) ∧
      (isClosedOut (trackOne prices t pick) = true ↔
        (pick.tp_price ≤ cp ∨ cp ≤ pick.sl_price)) ∧
      ((pick.tp_price ≤ cp ∨ cp ≤ pick.sl_price) →
        (trackPick (trackOne prices t pick)).realized_pnl_pct
          = pyround2 ((cp - pick.entry_price) / pick.entry_price * 100)) ∧
      ((trackPick (trackOne prices t pick)).unrealized_pnl_pct
          = pyround2 ((cp - pick.entry_price) / pick.entry_price * 100))) ∧
    (∀ (prices : PriceMap) (t : Nat) (pick : Pick) (cp ch : ℚ),
      priceLookup prices pick.symbol = some (cp, ch) → pick.direction = "SHORT" →
      ((trackPick (trackOne prices t pick)).status =
        (if cp ≤ pick.tp_price then "CLOSED_TP"
         else if pick.sl_price ≤ cp then "CLOSED_SL" else "ACTIVE")) ∧
      (isClosedOut (trackOne prices t pick) = true ↔
        (cp ≤ pick.tp_price ∨ pick.sl_price ≤ cp)) ∧
      ((cp ≤ pick.tp_price ∨ pick.sl_price ≤ cp) →
        (trackPick (trackOne prices t pick)).realized_pnl_pct
          = pyround2 ((pick.entry_price - cp) / pick.entry_price * 100)) ∧
      ((trackPick (trackOne prices t pick)).unrealized_pnl_pct
          = pyround2 ((pick.entry_price - cp) / pick.entry_price * 100))) ∧
    ((trackPick (trackOne [("BTC", 106, 0)] 3 sampleLong)).status = "CLOSED_TP" ∧
      (trackPick (trackOne [("BTC", 106, 0)] 3 sampleLong)).realized_pnl_pct = 6) ∧
    ((trackPick (trackOne [("BTC", 95, 0)] 3 sampleLong)).status = "CLOSED_SL" ∧
      (trackPick (trackOne [("BTC", 95, 0)] 3 sampleLong)).realized_pnl_pct = -5) ∧
    ((trackPick (trackOne [("BTC", 201/2, 0)] 3 sampleLong)).status = "ACTIVE" ∧
      isClosedOut (trackOne [("BTC", 201/2, 0)] 3 sampleLong) = false ∧
      (trackPick (trackOne [("BTC", 201/2, 0)] 3 sampleLong)).unrealized_pnl_pct = 1/2) := by
  refine ⟨?_, ?_, ?_, ?_, ?_⟩
  · intro prices t pick cp ch hlk hdir
    have hns : ¬ (pick.direction = "SHORT") := by rw [hdir]; decide
    have htp : (tpHit cp pick = true) = (pick.tp_price ≤ cp) := by
      simp [tpHit, hns, ge_iff_le]
    have hsl : (slHit cp pick = true) = (cp ≤ pick.sl_price) := by
      simp [slHit, hns]
    have hpnl : pnlPct cp pick = pyround2 ((cp - pick.entry_price) / pick.entry_price * 100) := by
      simp [pnlPct, hns]
    rw [trackOne_some hlk]
    simp only [htp, hsl]
    by_cases h1 : pick.tp_price ≤ cp
    · rw [if_pos h1, if_pos h1]
      exact ⟨rfl, by simp [isClosedOut, h1], fun _ => hpnl, hpnl⟩
    · rw [if_neg h1, if_neg h1]
      by_cases h2 : cp ≤ pick.sl_price
      · rw [if_pos h2, if_pos h2]
        exact ⟨rfl, by simp [isClosedOut, h1, h2], fun _ => hpnl, hpnl⟩
      · rw [if_neg h2, if_neg h2]
        refine ⟨rfl, by simp [isClosedOut, h1, h2], ?_, hpnl⟩
        intro h
        rcases h with h | h
        · exact absurd h h1
        · exact absurd h h2
  · intro prices t pick cp ch hlk hdir
    have htp : (tpHit cp pick = true) = (cp ≤ pick.tp_price) := by
      simp [tpHit, hdir]
    have hsl : (slHit cp pick = true) = (pick.sl_price ≤ cp) := by
      simp [slHit, hdir, ge_iff_le]
    have hpnl : pnlPct cp pick = pyround2 ((pick.entry_price - cp) / pick.entry_price * 100) := by
      simp [pnlPct, hdir]
    rw [trackOne_some hlk]
    simp only [htp, hsl]
    by_cases h1 : cp ≤ pick.tp_price
    · rw [if_pos h1, if_pos h1]
      exact ⟨rfl, by simp [isClosedOut, h1], fun _ => hpnl, hpnl⟩
    · rw [if_neg h1, if_neg h1]
      by_cases h2 : pick.sl_price ≤ cp
      · rw [if_pos h2, if_pos h2]
        exact ⟨rfl, by simp [isClosedOut, h1, h2], fun _ => hpnl, hpnl⟩
      · rw [if_neg h2, if_neg h2]
        refine ⟨rfl, by simp [isClosedOut, h1, h2], ?_, hpnl⟩
        intro h
        rcases h with h | h
        · exact absurd h h1
        · exact absurd h h2
  · have hns : ¬ ("LONG" : String) = "SHORT" := by decide
    have hlk : priceLookup [("BTC", 106, 0)] sampleLong.symbol = some ((106 : ℚ), (0 : ℚ)) := rfl
    have htp : tpHit (106 : ℚ) sampleLong = true := by norm_num [tpHit, sampleLong, hns]
    rw [trackOne_some hlk]
    simp only [htp, if_true]
    constructor
    · rfl
    · show pnlPct 106 sampleLong = 6
      rw [show pnlPct 106 sampleLong
          = pyround2 ((106 - sampleLong.entry_price) / sampleLong.entry_price * 100) by
        norm_num [pnlPct, sampleLong, hns]]
      exact pyround2_eq (z := 600) (by norm_num [sampleLong]) (by norm_num)
  · have hns : ¬ ("LONG" : String) = "SHORT" := by decide
    have hlk : priceLookup [("BTC", 95, 0)] sampleLong.symbol = some ((95 : ℚ), (0 : ℚ)) := rfl
    have htp : tpHit (95 : ℚ) sampleLong = false := by norm_num [tpHit, sampleLong, hns]
    have hsl : slHit (95 : ℚ) sampleLong = true := by norm_num [slHit, sampleLong, hns]
    rw [trackOne_some hlk]
    simp only [htp, hsl, if_true, Bool.false_eq_true, if_false]
    constructor
    · rfl
    · show pnlPct 95 sampleLong = -5
      rw [show pnlPct 95 sampleLong
          = pyround2 ((95 - sampleLong.entry_price) / sampleLong.entry_price * 100) by
        norm_num [pnlPct, sampleLong, hns]]
      exact pyround2_eq (z := -500) (by norm_num [sampleLong]) (by norm_num)
  · have hlk : priceLookup [("BTC", 201/2, 0)] sampleLong.symbol
        = some ((201 : ℚ)/2, (0 : ℚ)) := rfl
    have hns : ¬ ("LONG" : String) = "SHORT" := by decide
    have htp : tpHit ((201 : ℚ)/2) sampleLong = false := by norm_num [tpHit, sampleLong, hns]
    have hsl : slHit ((201 : ℚ)/2) sampleLong = false := by norm_num [slHit, sampleLong, hns]
    rw [trackOne_some hlk]
    simp only [htp, hsl, Bool.false_eq_true, if_false]
    refine ⟨rfl, rfl, ?_⟩
    show pnlPct (201/2) sampleLong = 1/2
    rw [show pnlPct (201/2) sampleLong
        = pyround2 ((201/2 - sampleLong.entry_price) / sampleLong.entry_price * 100) by
      norm_num [pnlPct, sampleLong, hns]]
    exact pyround2_eq (z := 50) (by norm_num [sampleLong]) (by norm_num)

/-- C2, witness: the spec's SHORT example — entry 100, TP 97, SL 102 — closes
`CLOSED_TP` with realized +3.0 at a snapshot price of 97. -/
theorem C2_witness :
    (trackPick (trackOne [("ETH", 97, 0)] 3 sampleShort)).status = "CLOSED_TP" ∧
    (trackPick (trackOne [("ETH", 97, 0)] 3 sampleShort)).realized_pnl_pct = 3 := by
  have h := C2_closure_rules.2.1 [("ETH", 97, 0)] 3 sampleShort 97 0 rfl rfl
  constructor
  · rw [h.1]
    norm_num [sampleShort]
  · rw [h.2.2.1 (Or.inl (by norm_num [sampleShort]))]
    exact pyround2_eq (z := 300) (by norm_num [sampleShort]) (by norm_num)

/-- Exhaustive case analysis of one tracking step. -/
theorem trackOne_cases (prices : PriceMap) (t : Nat) (pick : Pick) :
    (priceLookup prices pick.symbol = none ∧ trackOne prices t pick = .carried pick) ∨
    (∃ cp ch, priceLookup prices pick.symbol = some (cp, ch) ∧
      ((trackOne prices t pick = .closed (closeWith "CLOSED_TP" "TP_HIT" t cp pick) ∧
          tpHit cp pick = true) ∨
       (trackOne prices t pick = .closed (closeWith "CLOSED_SL" "SL_HIT" t cp pick) ∧
          tpHit cp pick = false ∧ slHit cp pick = true) ∨
       (trackOne prices t pick = .stillActive { stampTracking t cp pick with status := "ACTIVE" } ∧
          tpHit cp pick = false ∧ slHit cp pick = false))) := by
  rcases hopt : priceLookup prices pick.symbol with _ | ⟨cp, ch⟩
  · exact Or.inl ⟨rfl, trackOne_none hopt⟩
  · refine Or.inr ⟨cp, ch, rfl, ?_⟩
    rcases htp : tpHit cp pick with _ | _
    · rcases hsl : slHit cp pick with _ | _
      · refine Or.inr (Or.inr ⟨?_, rfl, rfl⟩)
        rw [trackOne_some hopt, htp, hsl]
        simp
      · refine Or.inr (Or.inl ⟨?_, rfl, rfl⟩)
        rw [trackOne_some hopt, htp, hsl]
        simp
    · refine Or.inl ⟨?_, rfl⟩
      rw [trackOne_some hopt, htp]
      simp

/-- Re-tracking a pick that a tracking pass left still active, against the
same snapshot, again leaves it still active and only re-stamps the
`last_checked` audit timestamp. -/
theorem trackOne_again {prices : PriceMap} {t1 : Nat} (t2 : Nat) {pick : Pick} {cp ch : ℚ}
    (hopt : priceLookup prices pick.symbol = some (cp, ch))
    (htp : tpHit cp pick = false) (hsl : slHit cp pick = false) :
    trackOne prices t2 { stampTracking t1 cp pick with status := "ACTIVE" }
      = .stillActive { { stampTracking t1 cp pick with status := "ACTIVE" } with
          last_checked := t2 } ∧
    stampTime prices t2 { stampTracking t1 cp pick with status := "ACTIVE" }
      = { { stampTracking t1 cp pick with status := "ACTIVE" } with last_checked := t2 } := by
  have hopt2 : priceLookup prices
      ({ stampTracking t1 cp pick with status := "ACTIVE" } : Pick).symbol = some (cp, ch) := hopt
  constructor
  · rw [trackOne_some hopt2]
    have htp2 : tpHit cp ({ stampTracking t1 cp pick with status := "ACTIVE" } : Pick)
        = tpHit cp pick := rfl
    have hsl2 : slHit cp ({ stampTracking t1 cp pick with status := "ACTIVE" } : Pick)
        = slHit cp pick := rfl
    rw [htp2, hsl2, htp, hsl]
    simp only [Bool.false_eq_true, if_false]
    rfl
  · unfold stampTime
    rw [hopt2]

/-- Running the tracking pass a second time against the same snapshot closes
nothing and only re-stamps `last_checked` on the picks whose symbol resolves. -/
theorem track_twice (prices : PriceMap) (t1 t2 : Nat) :
    ∀ active : List Pick,
      trackPerformance prices t2 (trackPerformance prices t1 active).1
        = ((trackPerformance prices t1 active).1.map (stampTime prices t2), []) := by
  intro active
  induction active with
  | nil => rfl
  | cons pick rest ih =>
    rcases trackOne_cases prices t1 pick with ⟨hlk, htr⟩ | ⟨cp, ch, hlk, hcase⟩
    · rw [trackPerformance_cons, htr]
      simp only
      have h2 : trackOne prices t2 pick = .carried pick := trackOne_none hlk
      rw [trackPerformance_cons, h2]
      simp only
      rw [ih]
      have hst : stampTime prices t2 pick = pick := by unfold stampTime; rw [hlk]
      simp [hst]
    · rcases hcase with ⟨htr, -⟩ | ⟨htr, -, -⟩ | ⟨htr, htp, hsl⟩
      · rw [trackPerformance_cons, htr]
        simpa using ih
      · rw [trackPerformance_cons, htr]
        simpa using ih
      · rw [trackPerformance_cons, htr]
        simp only
        obtain ⟨h2, h3⟩ := trackOne_again t2 hlk htp hsl
        rw [trackPerformance_cons, h2]
        simp only
        rw [ih]
        simp [h3]

theorem saveClosedPicks_le (closed newly : List Pick) :
    (saveClosedPicks closed newly).length ≤ 1000 := by
  unfold saveClosedPicks
  simp only [List.length_drop]
  omega

theorem saveClosedPicks_nil_of_le {l : List Pick} (h : l.length ≤ 1000) :
    saveClosedPicks l [] = l := by
  unfold saveClosedPicks
  simp only [List.append_nil]
  have h0 : l.length - 1000 = 0 := by omega
  rw [h0, List.drop_zero]

/-!
## C5 — Lifecycle idempotence
-/

/-- C5: re-running the lifecycle pass on the tracked active set, with the same
snapshot and no new candidates, closes nothing, changes no field of any signal
except the `last_checked` audit timestamp (and that only on picks whose symbol
resolves), appends nothing to the persisted closed history, and the
no-candidate merge returns the active set unchanged. -/
theorem C5_idempotent (prices : PriceMap) (t1 t2 : Nat) (active closed : List Pick) :
    trackPerformance prices t2 (trackPerformance prices t1 active).1
      = ((trackPerformance prices t1 active).1.map (stampTime prices t2), []) ∧
    saveClosedPicks (saveClosedPicks closed (trackPerformance prices t1 active).2) []
      = saveClosedPicks closed (trackPerformance prices t1 active).2 ∧
    mergePicks [] (trackPerformance prices t1 active).1
      = (trackPerformance prices t1 active).1 :=
  ⟨track_twice prices t1 t2 active,
   saveClosedPicks_nil_of_le (saveClosedPicks_le _ _), rfl⟩

/-!
## C9 — Missing symbols are carried unchanged
-/

/-- C9: the sublist of tracked picks whose symbol is absent from the snapshot
is exactly the corresponding sublist of the input — each such signal is
carried to the next active set verbatim, every field unchanged — and no
absent-symbol signal ever appears among the new closures. -/
theorem C9_missing_symbol_frame (prices : PriceMap) (t : Nat) (active : List Pick) :
    (trackPerformance prices t active).1.filter
        (fun p => (priceLookup prices p.symbol).isNone)
      = active.filter (fun p => (priceLookup prices p.symbol).isNone) ∧
    (trackPerformance prices t active).2.filter
        (fun p => (priceLookup prices p.symbol).isNone) = [] := by
  induction active with
  | nil => exact ⟨rfl, rfl⟩
  | cons pick rest ih =>
    rcases trackOne_cases prices t pick with ⟨hlk, htr⟩ | ⟨cp, ch, hlk, hcase⟩
    · rw [trackPerformance_cons, htr]
      simp only
      have hpred : (priceLookup prices pick.symbol).isNone = true := by rw [hlk]; rfl
      rw [List.filter_cons, List.filter_cons]
      simp only [hpred, if_true]
      exact ⟨by rw [ih.1], ih.2⟩
    · have hpred : (priceLookup prices pick.symbol).isNone = false := by rw [hlk]; rfl
      rcases hcase with ⟨htr, -⟩ | ⟨htr, -, -⟩ | ⟨htr, -, -⟩
      · rw [trackPerformance_cons, htr]
        simp only
        have hps : ((closeWith "CLOSED_TP" "TP_HIT" t cp pick).symbol) = pick.symbol := rfl
        constructor
        · rw [List.filter_cons]
          simp only [hpred, Bool.false_eq_true, if_false]
          exact ih.1
        · rw [List.filter_cons]
          simp only [hps, hpred, Bool.false_eq_true, if_false]
          exact ih.2
      · rw [trackPerformance_cons, htr]
        simp only
        have hps : ((closeWith "CLOSED_SL" "SL_HIT" t cp pick).symbol) = pick.symbol := rfl
        constructor
        · rw [List.filter_cons]
          simp only [hpred, Bool.false_eq_true, if_false]
          exact ih.1
        · rw [List.filter_cons]
          simp only [hps, hpred, Bool.false_eq_true, if_false]
          exact ih.2
      · rw [trackPerformance_cons, htr]
        simp only
        have hps : (stampTracking t cp pick).symbol = pick.symbol := rfl
        refine ⟨?_, ih.2⟩
        rw [List.filter_cons, List.filter_cons]
        simp only [hps, hpred, Bool.false_eq_true, if_false]
        exact ih.1

/-!
## C6 — RSI
-/

/-- A flat series has all-zero deltas. -/
theorem deltasOf_replicate (n : ℕ) (c : ℚ) :
    deltasOf (List.replicate n c) = List.replicate (n - 1) 0 := by
  unfold deltasOf
  rw [List.tail_replicate, List.zip_replicate, List.map_replicate]
  have hmin : min n (n - 1) = n - 1 := by omega
  rw [hmin]
  norm_num

/-- Wilder smoothing of zeros from a zero seed stays zero. -/
theorem wilderSmooth_zeros (period : ℕ) : ∀ k : ℕ,
    wilderSmooth period 0 (List.replicate k 0) = 0 := by
  intro k
  induction k with
  | zero => rfl
  | succ m ih =>
    unfold wilderSmooth at ih ⊢
    rw [List.replicate_succ, List.foldl_cons]
    simpa using ih

/-- The Wilder average loss of a flat series is exactly zero. -/
theorem rsiAvgLoss_replicate (n : ℕ) (c : ℚ) (period : ℕ) :
    rsiAvgLoss (List.replicate n c) period = 0 := by
  unfold rsiAvgLoss
  rw [deltasOf_replicate]
  have hmap : (List.replicate (n - 1) (0 : ℚ)).map (fun d => if d < 0 then -d else 0)
      = List.replicate (n - 1) 0 := by
    rw [List.map_replicate]
    norm_num
  rw [hmap]
  simp only [List.take_replicate, List.drop_replicate, List.sum_replicate, smul_zero, zero_div]
  exact wilderSmooth_zeros period _

/-- C6: for every price series and every positive period, RSI is `null` when
the series is shorter than `period + 1`; whenever the Wilder-smoothed average
loss comes out exactly zero it returns exactly 100; and in particular a flat
series (no deltas) of sufficient length returns 100. -/
theorem C6_rsi_spec (closes : List ℚ) (period : ℕ) (hper : 0 < period) :
    (closes.length < period + 1 → calcRsi closes period = none) ∧
    (¬ closes.length < period + 1 → rsiAvgLoss closes period = 0 →
      calcRsi closes period = some 100) ∧
    (∀ (c : ℚ) (n : ℕ), period + 1 ≤ n →
      calcRsi (List.replicate n c) period = some 100) := by
  refine ⟨?_, ?_, ?_⟩
  · intro h
    simp [calcRsi, h]
  · intro h hzero
    simp [calcRsi, h, hzero]
  · intro c n hn
    have hlen : ¬ (List.replicate n c).length < period + 1 := by
      rw [List.length_replicate]
      omega
    have hz := rsiAvgLoss_replicate n c period
    simp [calcRsi, hlen, hz]
    omega

/-- C6, witness: RSI of a 15-long flat series at period 14 is 100; RSI of a
2-long series at period 14 is null. -/
theorem C6_witness :
    calcRsi (List.replicate 15 (5 : ℚ)) 14 = some 100 ∧ calcRsi [1, 2] 14 = none :=
  ⟨(C6_rsi_spec (List.replicate 15 5) 14 (by norm_num)).2.2 5 15 (by norm_num),
   (C6_rsi_spec [1, 2] 14 (by norm_num)).1 (by simp)⟩

/-!
## C7 — Aggregate performance stats
-/

theorem sum_map_eq_foldr (f : Pick → ℚ) : ∀ l : List Pick,
    (l.map f).sum = l.foldr (fun p s => f p + s) 0 := by
  intro l
  induction l with
  | nil => rfl
  | cons p rest ih => simp [ih]

/-- C7: the stats record counts every closed signal, counts wins as the
TP_HIT closures; the win rate is 0 with no closed signals and otherwise
`round(100 · wins / totalClosed, 1)`; total realized P&L is the (rounded) sum
of the realized P&L amounts over the closed history; and total unrealized P&L
is the (rounded) sum of the unrealized amounts over the current active set. -/
theorem C7_perf_stats (active closed : List Pick) :
    ((computePerformanceStats active closed).total_closed = closed.length) ∧
    ((computePerformanceStats active closed).wins
      = (closed.filter (fun p => p.exit_reason = "TP_HIT")).length) ∧
    (closed = [] → (computePerformanceStats active closed).win_rate_pct = 0) ∧
    (closed ≠ [] → (computePerformanceStats active closed).win_rate_pct
      = pyround1 (100 * ((computePerformanceStats active closed).wins : ℚ) / closed.length)) ∧
    ((computePerformanceStats active closed).total_realized_pnl_dollar
      = pyround2 (closed.foldr (fun p s => p.realized_pnl_dollar + s) 0)) ∧
    ((computePerformanceStats active closed).total_unrealized_pnl_dollar
      = pyround2 (active.foldr (fun p s => p.unrealized_pnl_dollar + s) 0)) := by
  refine ⟨rfl, rfl, ?_, ?_, ?_, ?_⟩
  · intro h
    subst h
    rfl
  · intro h
    have hlen : 0 < closed.length := List.length_pos.2 h
    show (if 0 < closed.length then
        pyround1 ((((closed.filter (fun p => p.exit_reason = "TP_HIT")).length : ℚ))
          / closed.length * 100) else 0) = _
    rw [if_pos hlen]
    have hw : ((computePerformanceStats active closed).wins : ℚ)
        = ((closed.filter (fun p => p.exit_reason = "TP_HIT")).length : ℚ) := rfl
    rw [hw]
    congr 1
    ring
  · show pyround2 ((closed.map (fun p => p.realized_pnl_dollar)).sum) = _
    rw [sum_map_eq_foldr]
  · show pyround2 ((active.map (fun p => p.unrealized_pnl_dollar)).sum) = _
    rw [sum_map_eq_foldr]

/-- C7, witness: no closed signals gives win rate 0; one TP_HIT closure out of
one gives win rate 100. -/
theorem C7_witness :
    (computePerformanceStats [] []).win_rate_pct = 0 ∧
    (computePerformanceStats [] [{ sampleLong with exit_reason := "TP_HIT" }]).win_rate_pct
      = 100 := by
  constructor
  · exact (C7_perf_stats [] []).2.2.1 rfl
  · have h := (C7_perf_stats [] [{ sampleLong with exit_reason := "TP_HIT" }]).2.2.2.1
      (by simp)
    rw [h]
    have hw : (computePerformanceStats [] [{ sampleLong with exit_reason := "TP_HIT" }]).wins
        = 1 := rfl
    rw [hw]
    refine pyround1_eq (z := 1000) ?_ (by norm_num)
    simp
    norm_num

/-!
## C10 — Final pick selection
-/

/-- Dict update with an unseen key appends the candidate. -/
theorem updateBest_no_match : ∀ (acc : List Pick) (c : Pick),
    (∀ q ∈ acc, dedupKey q ≠ dedupKey c) → updateBest acc c = acc ++ [c] := by
  intro acc
  induction acc with
  | nil => intro c _; rfl
  | cons q rest ih =>
    intro c h
    have hq : dedupKey q ≠ dedupKey c := h q (List.mem_cons_self _ _)
    simp only [updateBest]
    rw [if_neg hq, ih c (fun x hx => h x (List.mem_cons_of_mem _ hx))]
    rfl

/-- Dict update with a seen key replaces in place exactly when the candidate's
confidence is strictly higher. -/
theorem updateBest_match : ∀ (l1 : List Pick) (q0 : Pick) (l2 : List Pick) (c : Pick),
    (∀ q ∈ l1, dedupKey q ≠ dedupKey c) → dedupKey q0 = dedupKey c →
    updateBest (l1 ++ q0 :: l2) c
      = l1 ++ (if c.confidence > q0.confidence then c else q0) :: l2 := by
  intro l1
  induction l1 with
  | nil =>
    intro q0 l2 c _ hk
    simp only [List.nil_append, updateBest]
    rw [if_pos hk]
  | cons q rest ih =>
    intro q0 l2 c h hk
    have hq : dedupKey q ≠ dedupKey c := h q (List.mem_cons_self _ _)
    simp only [List.cons_append, updateBest, List.append_eq]
    rw [if_neg hq, ih q0 l2 c (fun x hx => h x (List.mem_cons_of_mem _ hx)) hk]

/-- One dict update preserves the dedup invariant: keys stay distinct, every
element of the dict was seen, every seen key is represented, and each dict
entry dominates the confidence of every seen pick sharing its key. -/
theorem updateBest_inv (acc seen : List Pick) (c : Pick)
    (h1 : (acc.map dedupKey).Nodup)
    (h2 : ∀ p ∈ acc, p ∈ seen)
    (h3 : ∀ q ∈ seen, ∃ p ∈ acc, dedupKey p = dedupKey q)
    (h4 : ∀ p ∈ acc, ∀ q ∈ seen, dedupKey q = dedupKey p → q.confidence ≤ p.confidence) :
    ((updateBest acc c).map dedupKey).Nodup ∧
    (∀ p ∈ updateBest acc c, p ∈ seen ++ [c]) ∧
    (∀ q ∈ seen ++ [c], ∃ p ∈ updateBest acc c, dedupKey p = dedupKey q) ∧
    (∀ p ∈ updateBest acc c, ∀ q ∈ seen ++ [c],
      dedupKey q = dedupKey p → q.confidence ≤ p.confidence) := by
  by_cases hin : dedupKey c ∈ acc.map dedupKey
  · obtain ⟨q0, hq0, hkey⟩ := List.mem_map.1 hin
    obtain ⟨l1, l2, hacc⟩ := List.append_of_mem hq0
    subst hacc
    have hl1 : ∀ q ∈ l1, dedupKey q ≠ dedupKey c := by
      intro q hq hqc
      have hnd := h1
      rw [List.map_append, List.map_cons, List.nodup_append] at hnd
      have hq0l1 : dedupKey q0 ∈ l1.map dedupKey := by
        rw [hkey, ← hqc]
        exact List.mem_map_of_mem _ hq
      exact hnd.2.2 hq0l1 (List.mem_cons_self _ _)
    rw [updateBest_match l1 q0 l2 c hl1 hkey]
    set r := if c.confidence > q0.confidence then c else q0 with hr
    have hkr : dedupKey r = dedupKey q0 := by
      rw [hr]
      by_cases hc : c.confidence > q0.confidence
      · rw [if_pos hc, ← hkey]
      · rw [if_neg hc]
    have hconfr : q0.confidence ≤ r.confidence ∧ c.confidence ≤ r.confidence := by
      rw [hr]
      by_cases hc : c.confidence > q0.confidence
      · rw [if_pos hc]
        exact ⟨le_of_lt hc, le_refl _⟩
      · rw [if_neg hc]
        exact ⟨le_refl _, not_lt.1 hc⟩
    have hmapeq : (l1 ++ r :: l2).map dedupKey = (l1 ++ q0 :: l2).map dedupKey := by
      simp only [List.map_append, List.map_cons, hkr]
    refine ⟨by rw [hmapeq]; exact h1, ?_, ?_, ?_⟩
    · intro p hp
      rcases List.mem_append.1 hp with hp | hp
      · exact List.mem_append_left _ (h2 p (List.mem_append_left _ hp))
      · rcases List.mem_cons.1 hp with hp | hp
        · subst hp
          rw [hr]
          by_cases hc : c.confidence > q0.confidence
          · rw [if_pos hc]
            exact List.mem_append_right _ (List.mem_singleton_self _)
          · rw [if_neg hc]
            exact List.mem_append_left _
              (h2 q0 (List.mem_append_right _ (List.mem_cons_self _ _)))
        · exact List.mem_append_left _
            (h2 p (List.mem_append_right _ (List.mem_cons_of_mem _ hp)))
    · intro q hq
      rcases List.mem_append.1 hq with hq | hq
      · obtain ⟨p0, hp0, hp0k⟩ := h3 q hq
        rcases List.mem_append.1 hp0 with hp0 | hp0
        · exact ⟨p0, List.mem_append_left _ hp0, hp0k⟩
        · rcases List.mem_cons.1 hp0 with hp0 | hp0
          · subst hp0
            exact ⟨r, List.mem_append_right _ (List.mem_cons_self _ _), by rw [hkr, hp0k]⟩
          · exact ⟨p0, List.mem_append_right _ (List.mem_cons_of_mem _ hp0), hp0k⟩
      · have hqc := List.mem_singleton.1 hq
        subst hqc
        exact ⟨r, List.mem_append_right _ (List.mem_cons_self _ _), by rw [hkr, hkey]⟩
    · intro p hp q hq hkq
      have hpin : p ∈ l1 ∨ p = r ∨ p ∈ l2 := by
        rcases List.mem_append.1 hp with hp | hp
        · exact Or.inl hp
        · rcases List.mem_cons.1 hp with hp | hp
          · exact Or.inr (Or.inl hp)
          · exact Or.inr (Or.inr hp)
      rcases List.mem_append.1 hq with hq | hq
      · rcases hpin with hp2 | hp2 | hp2
        · exact h4 p (List.mem_append_left _ hp2) q hq hkq
        · subst hp2
          have hq0dom := h4 q0 (List.mem_append_right _ (List.mem_cons_self _ _)) q hq
            (by rw [hkq, hkr])
          exact le_trans hq0dom hconfr.1
        · exact h4 p (List.mem_append_right _ (List.mem_cons_of_mem _ hp2)) q hq hkq
      · have hqc := List.mem_singleton.1 hq
        subst hqc
        rcases hpin with hp2 | hp2 | hp2
        · exact absurd hkq.symm (hl1 p hp2)
        · subst hp2
          exact hconfr.2
        · exfalso
          have hnd := h1
          rw [List.map_append, List.map_cons, List.nodup_append] at hnd
          have hpl2 : dedupKey p ∈ l2.map dedupKey := List.mem_map_of_mem _ hp2
          have : dedupKey q0 ≠ dedupKey p := by
            have hq0nd := hnd.2.1
            rw [List.nodup_cons] at hq0nd
            intro heq
            exact hq0nd.1 (heq ▸ hpl2)
          exact this (by rw [← hkq, hkey])
  · have hnomatch : ∀ q ∈ acc, dedupKey q ≠ dedupKey c := by
      intro q hq hqc
      exact hin (hqc ▸ List.mem_map_of_mem _ hq)
    rw [updateBest_no_match acc c hnomatch]
    refine ⟨?_, ?_, ?_, ?_⟩
    · rw [List.map_append, List.map_cons, List.map_nil, List.nodup_append]
      exact ⟨h1, List.nodup_singleton _, by
        intro k hk
        simp only [List.mem_singleton]
        intro hkc
        exact hin (hkc ▸ hk)⟩
    · intro p hp
      rcases List.mem_append.1 hp with hp | hp
      · exact List.mem_append_left _ (h2 p hp)
      · exact List.mem_append_right _ hp
    · intro q hq
      rcases List.mem_append.1 hq with hq | hq
      · obtain ⟨p0, hp0, hp0k⟩ := h3 q hq
        exact ⟨p0, List.mem_append_left _ hp0, hp0k⟩
      · have hqc := List.mem_singleton.1 hq
        exact ⟨c, List.mem_append_right _ (List.mem_singleton_self _), by rw [hqc]⟩
    · intro p hp q hq hkq
      rcases List.mem_append.1 hp with hp | hp
      · rcases List.mem_append.1 hq with hq | hq
        · exact h4 p hp q hq hkq
        · have hqc := List.mem_singleton.1 hq
          refine absurd ?_ (hnomatch p hp)
          rw [← hqc, hkq]
      · have hpc := List.mem_singleton.1 hp
        rcases List.mem_append.1 hq with hq | hq
        · obtain ⟨p0, hp0, hp0k⟩ := h3 q hq
          refine absurd ?_ (hnomatch p0 hp0)
          rw [hp0k, hkq, hpc]
        · have hqc := List.mem_singleton.1 hq
          rw [hqc, hpc]

/-- The dedup fold maintains the invariant over the whole candidate list. -/
theorem bestByKey_loop_inv : ∀ (l acc seen : List Pick),
    (acc.map dedupKey).Nodup →
    (∀ p ∈ acc, p ∈ seen) →
    (∀ q ∈ seen, ∃ p ∈ acc, dedupKey p = dedupKey q) →
    (∀ p ∈ acc, ∀ q ∈ seen, dedupKey q = dedupKey p → q.confidence ≤ p.confidence) →
    ((List.foldl updateBest acc l).map dedupKey).Nodup ∧
    (∀ p ∈ List.foldl updateBest acc l, p ∈ seen ++ l) ∧
    (∀ q ∈ seen ++ l, ∃ p ∈ List.foldl updateBest acc l, dedupKey p = dedupKey q) ∧
    (∀ p ∈ List.foldl updateBest acc l, ∀ q ∈ seen ++ l,
      dedupKey q = dedupKey p → q.confidence ≤ p.confidence) := by
  intro l
  induction l with
  | nil =>
    intro acc seen h1 h2 h3 h4
    simp only [List.foldl_nil, List.append_nil]
    exact ⟨h1, h2, h3, h4⟩
  | cons c rest ih =>
    intro acc seen h1 h2 h3 h4
    obtain ⟨g1, g2, g3, g4⟩ := updateBest_inv acc seen c h1 h2 h3 h4
    have hres := ih (updateBest acc c) (seen ++ [c]) g1 g2 g3 g4
    have hl : (seen ++ [c]) ++ rest = seen ++ c :: rest := by
      rw [List.append_assoc]
      rfl
    rw [hl] at hres
    simpa only [List.foldl_cons] using hres

/-- Transitivity of the descending-confidence comparison. -/
theorem confDesc_trans : ∀ a b c : Pick, confDesc a b → confDesc b c → confDesc a c := by
  intro a b c hab hbc
  simp only [confDesc, decide_eq_true_eq] at hab hbc ⊢
  exact le_trans hbc hab

/-- Totality of the descending-confidence comparison. -/
theorem confDesc_total : ∀ a b : Pick, confDesc a b || confDesc b a := by
  intro a b
  simp only [confDesc, Bool.or_eq_true, decide_eq_true_eq]
  exact le_total b.confidence a.confidence

/-- C10: the emitted candidate list contains at most 8 picks, every pick comes
from the evaluator output, its `(symbol, direction)` keys are pairwise
distinct, each kept pick carries the maximum confidence among all candidates
sharing its key, and the list is sorted in non-increasing confidence order. -/
theorem C10_final_picks (all : List Pick) :
    (selectPicks all).length ≤ 8 ∧
    List.Pairwise (fun a b => b.confidence ≤ a.confidence) (selectPicks all) ∧
    ((selectPicks all).map dedupKey).Nodup ∧
    (∀ p ∈ selectPicks all, p ∈ all) ∧
    (∀ p ∈ selectPicks all, ∀ q ∈ all, dedupKey q = dedupKey p →
      q.confidence ≤ p.confidence) := by
  obtain ⟨hnd, hmem, hrep, hdom⟩ := bestByKey_loop_inv all [] []
    (by simp) (by simp) (by simp) (by simp)
  simp only [List.nil_append] at hmem hrep hdom
  have hperm : List.Perm ((bestByKey all).mergeSort confDesc) (bestByKey all) :=
    List.mergeSort_perm (bestByKey all) confDesc
  have hsubtake : List.Sublist (selectPicks all) ((bestByKey all).mergeSort confDesc) :=
    List.take_sublist 8 _
  have hmemselect : ∀ p ∈ selectPicks all, p ∈ bestByKey all := by
    intro p hp
    exact hperm.mem_iff.1 (hsubtake.mem hp)
  refine ⟨List.length_take_le 8 _, ?_, ?_, ?_, ?_⟩
  · have hsorted := List.sorted_mergeSort confDesc_trans confDesc_total (bestByKey all)
    have hsorted2 : List.Pairwise (fun a b : Pick => b.confidence ≤ a.confidence)
        ((bestByKey all).mergeSort confDesc) := by
      refine hsorted.imp ?_
      intro a b h
      simpa [confDesc, decide_eq_true_eq] using h
    exact hsorted2.sublist hsubtake
  · have hnd2 : (((bestByKey all).mergeSort confDesc).map dedupKey).Nodup :=
      ((hperm.map dedupKey).nodup_iff).2 hnd
    exact hnd2.sublist (hsubtake.map dedupKey)
  · intro p hp
    exact hmem p (hmemselect p hp)
  · intro p hp q hq hkq
    exact hdom p (hmemselect p hp) q hq hkq

/-- C10, witness: from three candidates — two BTC LONG picks with confidences
0.6 and 0.7 and one ETH LONG pick with 0.65 — the final list keeps, for the
duplicated BTC key, only a pick dominating both BTC candidates. -/
theorem C10_witness :
    (selectPicks [sampleLong, { sampleLong with confidence := 7/10 },
        { sampleLong with symbol := "ETH", confidence := 13/20 }]).length ≤ 8 ∧
    (∀ p ∈ selectPicks [sampleLong, { sampleLong with confidence := 7/10 },
        { sampleLong with symbol := "ETH", confidence := 13/20 }],
      dedupKey p = dedupKey sampleLong → sampleLong.confidence ≤ p.confidence) := by
  have h := C10_final_picks [sampleLong, { sampleLong with confidence := 7/10 },
    { sampleLong with symbol := "ETH", confidence := 13/20 }]
  refine ⟨h.1, ?_⟩
  intro p hp hk
  exact h.2.2.2.2 p hp sampleLong (List.mem_cons_self _ _) hk.symm

end Claws
